import Mathlib

/-!
Verification of the mask-based image editor of PromptForge-Lovable.

The editor lives in two React components (the standalone edit page and the
embedded edit panel); both hold the same state and callbacks.  This file is a
shallow embedding of that state and of the operations the claims are about:

* `Surface`      — an `ImageData` value: dimensions plus a flattened RGBA byte
                   list (`data.length = width*height*4`, row-major, 4 bytes per
                   pixel, alpha at offset 3).
* `EditorState`  — the component state touched by the editor callbacks:
                   the natural (native) image size, the display canvas
                   (`canvasRef`; `none` before the image has loaded), the
                   selection mask (`selectionMaskRef`), the derived
                   `hasSmartSelection` flag, and the two history stacks.

JS arrays are embedded as Lean lists with the HEAD as the MOST RECENT element
(JS `push`/`pop` act on the array end; here they are `cons`/head).  Under that
representation JS `arr.slice(-30)` — keep the 30 most recent — is `take 30`.
-/

namespace PromptForge

/-- An `ImageData` snapshot: width, height and the flattened RGBA byte list. -/
structure Surface where
  width : Nat
  height : Nat
  data : List Nat
deriving DecidableEq

/-- The editor component state relevant to the claims: natural image size
(`naturalSize`), display canvas (`canvasRef.current`, `none` until the image
load effect ran), selection mask (`selectionMaskRef.current`), the
`hasSmartSelection` flag, and the undo/redo stacks of `ImageData` snapshots. -/
structure EditorState where
  natW : Nat
  natH : Nat
  surface : Option Surface
  selectionMask : Option (List Nat)
  hasSmartSelection : Bool
  undoStack : List Surface
  redoStack : List Surface
deriving DecidableEq

/-- `saveSnapshot` (the History Manager's `recordBeforeChange`): no-op without
a canvas; otherwise `setUndoStack(prev => [...prev.slice(-30), snapshot])` and
`setRedoStack([])`.  `slice(-30)` keeps the 30 most recent entries, i.e.
`take 30` in the head-is-most-recent representation; the fresh snapshot is
then pushed on top, so the stack can reach length 31. -/
def saveSnapshot (s : EditorState) : EditorState :=
  match s.surface with
  | none => s
  | some surf =>
      { s with undoStack := surf :: s.undoStack.take 30, redoStack := [] }

/-- `undo`: no-op if there is no canvas or the undo stack is empty; otherwise
snapshot the current surface onto the redo stack, pop the most recent undo
entry and restore it onto the canvas (`putImageData`). -/
def undoOp (s : EditorState) : EditorState :=
  match s.surface, s.undoStack with
  | some surf, last :: rest =>
      { s with surface := some last, undoStack := rest,
               redoStack := surf :: s.redoStack }
  | _, _ => s

/-- `redo`: symmetric to `undoOp`; note that the push back onto the undo stack
(`setUndoStack(u => [...u, currentState])`) does NOT truncate. -/
def redoOp (s : EditorState) : EditorState :=
  match s.surface, s.redoStack with
  | some surf, top :: rest =>
      { s with surface := some top, redoStack := rest,
               undoStack := surf :: s.undoStack }
  | _, _ => s

/-- One committed stroke, abstracted as an arbitrary transformation `f` of the
display surface pixels (the brush engine's `draw` is one such `f`); a stroke
mutates the canvas only, leaving masks and stacks alone, and does nothing
when no canvas exists. -/
def applyStroke (f : Surface → Surface) (s : EditorState) : EditorState :=
  match s.surface with
  | none => s
  | some surf => { s with surface := some (f surf) }

/-- A recorded stroke: `onPointerDown` calls `saveSnapshot()` and then the
stroke mutates the canvas (one undoable unit). -/
def recordedStroke (s : EditorState) (f : Surface → Surface) : EditorState :=
  applyStroke f (saveSnapshot s)

/-- A sequence of recorded strokes, oldest first. -/
def runStrokes (s : EditorState) (fs : List (Surface → Surface)) : EditorState :=
  fs.foldl recordedStroke s

/-- The state right after the image-load effect ran: canvas allocated and
cleared, no selection, empty history. -/
def blankEditor (nw nh : Nat) (bs : Surface) : EditorState :=
  ⟨nw, nh, some bs, none, false, [], []⟩

/-- The history the recorded strokes build when no truncation occurs:
each stroke pushes the pre-stroke surface. -/
def pushHist : List (Surface → Surface) → Surface → List Surface → List Surface
  | [], _, us => us
  | f :: fs, a, us => pushHist fs (f a) (a :: us)

/-- The surface after applying all strokes in order. -/
def applyAll (fs : List (Surface → Surface)) (a : Surface) : Surface :=
  fs.foldl (fun x f => f x) a

lemma getLastD_ne_nil {α : Type} (l : List α) (d d' : α) (h : l ≠ []) :
    l.getLastD d = l.getLastD d' := by
  cases l with
  | nil => exact absurd rfl h
  | cons a l => rw [List.getLastD_cons, List.getLastD_cons]

lemma getLastD_concat {α : Type} (l : List α) (x d : α) :
    (l ++ [x]).getLastD d = x := by
  induction l generalizing d with
  | nil => simp [List.getLastD_cons]
  | cons a l ih => rw [List.cons_append, List.getLastD_cons]; exact ih a

/-- Draining a nonempty undo stack: `us.length + 1` undos restore the oldest
snapshot, empty the undo stack, and move every intermediate surface onto the
redo stack (most recent last pushed, i.e. at the head end appended last). -/
lemma undoOp_drain (us : List Surface) :
    ∀ (u a : Surface) (nw nh : Nat) (sel : Option (List Nat)) (hs : Bool)
      (rs : List Surface),
      undoOp^[(u :: us).length] ⟨nw, nh, some a, sel, hs, u :: us, rs⟩ =
        ⟨nw, nh, some ((u :: us).getLastD a), sel, hs, [],
          (u :: us).dropLast.reverse ++ a :: rs⟩ := by
  induction us with
  | nil =>
      intro u a nw nh sel hs rs
      simp [undoOp, List.getLastD_cons]
  | cons u₂ us ih =>
      intro u a nw nh sel hs rs
      rw [List.length_cons, Function.iterate_succ_apply]
      have h₁ : undoOp ⟨nw, nh, some a, sel, hs, u :: u₂ :: us, rs⟩ =
          ⟨nw, nh, some u, sel, hs, u₂ :: us, a :: rs⟩ := rfl
      rw [h₁, ih u₂ u nw nh sel hs (a :: rs)]
      simp only [List.getLastD_cons, List.dropLast_cons₂, List.reverse_cons,
        List.append_assoc, List.cons_append, List.nil_append]

/-- Draining a nonempty redo stack, symmetric to `undoOp_drain`. -/
lemma redoOp_drain (rs : List Surface) :
    ∀ (r a : Surface) (nw nh : Nat) (sel : Option (List Nat)) (hs : Bool)
      (us : List Surface),
      redoOp^[(r :: rs).length] ⟨nw, nh, some a, sel, hs, us, r :: rs⟩ =
        ⟨nw, nh, some ((r :: rs).getLastD a), sel, hs,
          (r :: rs).dropLast.reverse ++ a :: us, []⟩ := by
  induction rs with
  | nil =>
      intro r a nw nh sel hs us
      simp [redoOp, List.getLastD_cons]
  | cons r₂ rs ih =>
      intro r a nw nh sel hs us
      rw [List.length_cons, Function.iterate_succ_apply]
      have h₁ : redoOp ⟨nw, nh, some a, sel, hs, us, r :: r₂ :: rs⟩ =
          ⟨nw, nh, some r, sel, hs, a :: us, r₂ :: rs⟩ := rfl
      rw [h₁, ih r₂ r nw nh sel hs (a :: us)]
      simp only [List.getLastD_cons, List.dropLast_cons₂, List.reverse_cons,
        List.append_assoc, List.cons_append, List.nil_append]

lemma pushHist_length (fs : List (Surface → Surface)) :
    ∀ (a : Surface) (us : List Surface),
      (pushHist fs a us).length = fs.length + us.length := by
  induction fs with
  | nil => intro a us; simp [pushHist]
  | cons f fs ih =>
      intro a us
      rw [pushHist, ih (f a) (a :: us)]
      simp
      omega

lemma pushHist_getLastD_of_ne_nil (fs : List (Surface → Surface)) :
    ∀ (a d : Surface) (us : List Surface), us ≠ [] →
      (pushHist fs a us).getLastD d = us.getLastD d := by
  induction fs with
  | nil => intro a d us _; rfl
  | cons f fs ih =>
      intro a d us h
      rw [pushHist, ih (f a) d (a :: us) (by simp)]
      cases us with
      | nil => exact absurd rfl h
      | cons u us => simp [List.getLastD_cons]

/-- The oldest entry of the history built from an empty stack is the original
(pre-stroke-1) surface. -/
lemma pushHist_getLastD_nil (fs : List (Surface → Surface)) (a d : Surface)
    (h : fs ≠ []) : (pushHist fs a []).getLastD d = a := by
  cases fs with
  | nil => exact absurd rfl h
  | cons f fs =>
      rw [pushHist, pushHist_getLastD_of_ne_nil fs (f a) d [a] (by simp)]
      rfl

/-- As long as at most 31 strokes are recorded over an existing history that
leaves room for them, `slice(-30)` never truncates and the run is fully
described by `pushHist`/`applyAll`. -/
lemma runStrokes_spec (fs : List (Surface → Surface)) :
    ∀ (nw nh : Nat) (sel : Option (List Nat)) (hs : Bool) (a : Surface)
      (us rs : List Surface), us.length + fs.length ≤ 31 →
      runStrokes ⟨nw, nh, some a, sel, hs, us, rs⟩ fs =
        ⟨nw, nh, some (applyAll fs a), sel, hs, pushHist fs a us,
          if fs.isEmpty then rs else []⟩ := by
  induction fs with
  | nil =>
      intro nw nh sel hs a us rs _
      simp [runStrokes, applyAll, pushHist]
  | cons f fs ih =>
      intro nw nh sel hs a us rs hlen
      have htake : us.take 30 = us := by
        apply List.take_of_length_le
        simp at hlen
        omega
      have hstep : recordedStroke ⟨nw, nh, some a, sel, hs, us, rs⟩ f =
          ⟨nw, nh, some (f a), sel, hs, a :: us, []⟩ := by
        simp [recordedStroke, saveSnapshot, applyStroke, htake]
      have hrun : runStrokes ⟨nw, nh, some a, sel, hs, us, rs⟩ (f :: fs) =
          runStrokes ⟨nw, nh, some (f a), sel, hs, a :: us, []⟩ fs := by
        simp [runStrokes, hstep]
      rw [hrun, ih nw nh sel hs (f a) (a :: us) []
        (by simp at hlen ⊢; omega)]
      simp [applyAll, pushHist, runStrokes]

lemma recordedStroke_eq (nw nh : Nat) (sel : Option (List Nat)) (hsl : Bool)
    (a : Surface) (us rs : List Surface) (f : Surface → Surface) :
    recordedStroke ⟨nw, nh, some a, sel, hsl, us, rs⟩ f =
      ⟨nw, nh, some (f a), sel, hsl, a :: us.take 30, []⟩ := rfl

lemma applyAll_cons (f : Surface → Surface) (fs : List (Surface → Surface))
    (a : Surface) : applyAll (f :: fs) a = applyAll fs (f a) := rfl

lemma runStrokes_cons (s : EditorState) (f : Surface → Surface)
    (fs : List (Surface → Surface)) :
    runStrokes s (f :: fs) = runStrokes (recordedStroke s f) fs := rfl

/-- The canvas survives any run of recorded strokes and ends up holding the
composite of all the stroke mutations. -/
lemma runStrokes_surface (fs : List (Surface → Surface)) :
    ∀ (nw nh : Nat) (sel : Option (List Nat)) (hsl : Bool) (a : Surface)
      (us rs : List Surface),
      (runStrokes ⟨nw, nh, some a, sel, hsl, us, rs⟩ fs).surface =
        some (applyAll fs a) := by
  induction fs with
  | nil => intros; rfl
  | cons f fs ih =>
      intro nw nh sel hsl a us rs
      rw [runStrokes_cons, recordedStroke_eq, ih, applyAll_cons]

/-- Undo stack length after a nonempty run of recorded strokes: it grows by
one per stroke but saturates at 31 (the 30 kept by `slice(-30)` plus the
fresh snapshot). -/
lemma runStrokes_undoLen (fs : List (Surface → Surface)) :
    ∀ (nw nh : Nat) (sel : Option (List Nat)) (hsl : Bool) (a : Surface)
      (us rs : List Surface),
      (runStrokes ⟨nw, nh, some a, sel, hsl, us, rs⟩ fs).undoStack.length =
        if fs.isEmpty then us.length else min (us.length + fs.length) 31 := by
  induction fs with
  | nil => intros; rfl
  | cons f fs ih =>
      intro nw nh sel hsl a us rs
      rw [runStrokes_cons, recordedStroke_eq, ih]
      cases hfe : fs.isEmpty with
      | true =>
          have h0 : fs = [] := by simpa using hfe
          subst h0
          simp
          omega
      | false =>
          simp [hfe, List.length_take]
          omega

lemma undoOp_noop (s : EditorState) (h : s.undoStack = []) : undoOp s = s := by
  obtain ⟨nw, nh, srf, sel, hsl, us, rs⟩ := s
  simp only at h
  subst h
  cases srf <;> rfl

/-- Any state with a canvas and a full (31-entry) undo stack admits exactly 31
successful undos; the 32nd is a no-op. -/
lemma drain_full (t : EditorState) (a : Surface) (hsrf : t.surface = some a)
    (hlen : t.undoStack.length = 31) :
    (undoOp^[31] t).undoStack = [] ∧
      undoOp (undoOp^[31] t) = undoOp^[31] t := by
  obtain ⟨nw, nh, srf, sel, hsl, us, rs⟩ := t
  simp only at hsrf hlen
  subst hsrf
  cases us with
  | nil => simp at hlen
  | cons u us' =>
      have hdrain := undoOp_drain us' u a nw nh sel hsl rs
      rw [← hlen, hdrain]
      exact ⟨rfl, undoOp_noop _ rfl⟩

/-- Claim C1 (amended).  `recordBeforeChange` (`saveSnapshot`) keeps the 30
most recent previous snapshots and then pushes the fresh one, so the undo
stack is bounded by 31 — not 30: its length is `min (old + 1) 31`.
Consequently, for any sequence of at least 31 recorded strokes (in
particular 40), the undo stack holds exactly 31 snapshots, 31 invocations of
`undo` succeed, and only the 32nd is a no-op. -/
theorem saveSnapshot_cap_thirtyone
    (s : EditorState) (a : Surface) (hs : s.surface = some a)
    (nw nh : Nat) (bs : Surface) (fs : List (Surface → Surface))
    (h31 : 31 ≤ fs.length) :
    (saveSnapshot s).undoStack.length = min (s.undoStack.length + 1) 31 ∧
    (runStrokes (blankEditor nw nh bs) fs).undoStack.length = 31 ∧
    (undoOp^[31] (runStrokes (blankEditor nw nh bs) fs)).undoStack = [] ∧
    undoOp (undoOp^[31] (runStrokes (blankEditor nw nh bs) fs)) =
      undoOp^[31] (runStrokes (blankEditor nw nh bs) fs) := by
  have hlen : (runStrokes (blankEditor nw nh bs) fs).undoStack.length = 31 := by
    rw [show blankEditor nw nh bs = ⟨nw, nh, some bs, none, false, [], []⟩
      from rfl, runStrokes_undoLen]
    have hne : fs.isEmpty = false := by
      cases fs with
      | nil => simp at h31
      | cons f fs => rfl
    rw [hne]
    simp
    omega
  have hsurf : (runStrokes (blankEditor nw nh bs) fs).surface =
      some (applyAll fs bs) := runStrokes_surface fs nw nh none false bs [] []
  have hdrain := drain_full _ _ hsurf hlen
  refine ⟨?_, hlen, hdrain.1, hdrain.2⟩
  obtain ⟨nw', nh', srf, sel, hsl, us, rs⟩ := s
  simp only at hs
  subst hs
  simp [saveSnapshot, List.length_take]
  omega

/-- Claim C1 witness: 31 identity strokes already pin the undo stack at its
real bound of 31 entries. -/
theorem saveSnapshot_cap_thirtyone_witness :
    (runStrokes (blankEditor 1 1 ⟨1, 1, [0, 0, 0, 0]⟩)
        (List.replicate 31 (fun su => su))).undoStack.length = 31 :=
  (saveSnapshot_cap_thirtyone (blankEditor 1 1 ⟨1, 1, [0, 0, 0, 0]⟩)
    ⟨1, 1, [0, 0, 0, 0]⟩ rfl 1 1 ⟨1, 1, [0, 0, 0, 0]⟩
    (List.replicate 31 (fun su => su)) (by simp)).2.1

/-- Claim C1 counterexample.  After 40 recorded strokes the undo stack holds
31 snapshots — not 30 — and the 31st undo (the one after 30 successful
undos) is still not a no-op: `slice(-30)` keeps 30 entries and the fresh
snapshot is pushed on top of them. -/
theorem undo_cap_thirty_counterexample :
    (runStrokes (blankEditor 1 1 ⟨1, 1, [0, 0, 0, 0]⟩)
        (List.replicate 40 (fun su => su))).undoStack.length = 31 ∧
    undoOp (undoOp^[30] (runStrokes (blankEditor 1 1 ⟨1, 1, [0, 0, 0, 0]⟩)
        (List.replicate 40 (fun su => su)))) ≠
      undoOp^[30] (runStrokes (blankEditor 1 1 ⟨1, 1, [0, 0, 0, 0]⟩)
        (List.replicate 40 (fun su => su))) := by
  constructor
  · rfl
  · decide

/-- Claim C3 (amended).  For any sequence of `N ≤ 31` strokes, each preceded
by one `recordBeforeChange`, invoking `undo` `N` times restores the surface
pixel-for-pixel to its pre-stroke-1 (blank) state, and invoking `redo` `N`
times afterwards restores it pixel-for-pixel to its post-stroke-`N` state.
(Snapshots are values — deep copies — in this embedding, exactly as
`getImageData`/`putImageData` copy whole pixel buffers.)  The bound 31 is
forced by the `slice(-30)`-plus-push truncation; see the counterexample at
`N = 32`. -/
theorem undo_redo_inverse_up_to_cap
    (nw nh : Nat) (bs : Surface) (fs : List (Surface → Surface))
    (hN : fs.length ≤ 31) :
    (undoOp^[fs.length] (runStrokes (blankEditor nw nh bs) fs)).surface =
      some bs ∧
    (redoOp^[fs.length]
        (undoOp^[fs.length] (runStrokes (blankEditor nw nh bs) fs))).surface =
      (runStrokes (blankEditor nw nh bs) fs).surface := by
  cases fs with
  | nil => exact ⟨rfl, rfl⟩
  | cons f fs' =>
      have hrun := runStrokes_spec (f :: fs') nw nh none false bs [] []
        (by simpa using hN)
      rw [show blankEditor nw nh bs = ⟨nw, nh, some bs, none, false, [], []⟩
        from rfl, hrun]
      simp only [List.isEmpty_cons, Bool.false_eq_true, if_false]
      cases hph : pushHist (f :: fs') bs [] with
      | nil =>
          have := pushHist_length (f :: fs') bs []
          rw [hph] at this
          simp at this
      | cons u us' =>
          have hlen : (f :: fs').length = (u :: us').length := by
            have := pushHist_length (f :: fs') bs []
            rw [hph] at this
            simp at this ⊢
            omega
          rw [hlen, undoOp_drain us' u (applyAll (f :: fs') bs) nw nh none false []]
          have hlast : (u :: us').getLastD (applyAll (f :: fs') bs) = bs := by
            rw [← hph]
            exact pushHist_getLastD_nil (f :: fs') bs _ (by simp)
          constructor
          · simp only
            rw [hlast]
          · cases hrs : (u :: us').dropLast.reverse ++
                [applyAll (f :: fs') bs] with
            | nil => simp at hrs
            | cons r rest =>
                have hcount : (u :: us').length = (r :: rest).length := by
                  have h₁ := congrArg List.length hrs
                  simp at h₁ ⊢
                  omega
                rw [hcount,
                  redoOp_drain rest r ((u :: us').getLastD
                    (applyAll (f :: fs') bs)) nw nh none false []]
                simp only
                rw [← hrs, getLastD_concat]

/-- Claim C3 witness: two recorded strokes, two undos, two redos on a 1×1
surface. -/
theorem undo_redo_inverse_up_to_cap_witness :
    (undoOp^[2] (runStrokes (blankEditor 1 1 ⟨1, 1, [0, 0, 0, 0]⟩)
        [fun su => su, fun su => su])).surface = some ⟨1, 1, [0, 0, 0, 0]⟩ :=
  (undo_redo_inverse_up_to_cap 1 1 ⟨1, 1, [0, 0, 0, 0]⟩
    [fun su => su, fun su => su] (by simp)).1

/-- A concrete stroke that bumps the alpha byte of a 1×1 surface. -/
def bumpStroke : Surface → Surface :=
  fun su => ⟨su.width, su.height, [0, 0, 0, su.data.getD 3 0 + 1]⟩

set_option maxRecDepth 4000 in
/-- Claim C3 counterexample.  With `N = 32` recorded strokes the oldest
snapshot (the blank pre-stroke-1 state) is truncated away by `slice(-30)`,
so 32 undos do NOT restore the blank surface: the surface ends at the
post-stroke-1 state (alpha 1), not blank (alpha 0). -/
theorem undo_redo_inverse_counterexample :
    (undoOp^[32] (runStrokes (blankEditor 1 1 ⟨1, 1, [0, 0, 0, 0]⟩)
        (List.replicate 32 bumpStroke))).surface ≠
      some ⟨1, 1, [0, 0, 0, 0]⟩ := by
  decide

/-- One RGB sample of the source image resampled at display resolution
(`tmpCtx.drawImage(img, 0, 0, w, h)` followed by `getImageData`; reading
`data[pos*4]`, `data[pos*4+1]`, `data[pos*4+2]` is abstracted as indexing a
total color map by the linear pixel index `pos`). -/
structure RGB where
  r : Nat
  g : Nat
  b : Nat
deriving DecidableEq

/-- `Math.abs(data[pi]-seedR) + Math.abs(data[pi+1]-seedG) +
Math.abs(data[pi+2]-seedB)`. -/
def colorDiff (c₁ c₂ : RGB) : Nat :=
  Nat.dist c₁.r c₂.r + Nat.dist c₁.g c₂.g + Nat.dist c₁.b c₂.b

/-- `const tolerance = 32` — fixed, not user-configurable. -/
def tolerance : Nat := 32

/-- Push one candidate neighbor: `if (n >= 0 && !visited[n]) { visited[n] = 1;
stack.push(n); }`.  Every candidate produced for an in-bounds popped pixel is
itself in bounds, and the `getD` default 1 keeps the embedding total (treat an
out-of-range index as visited, so it is never pushed). -/
def pushNb (sv : List Nat × List Nat) (n : Nat) : List Nat × List Nat :=
  if sv.2.getD n 1 = 0 then (n :: sv.1, sv.2.set n 1) else sv

/-- The 4-connected neighbor candidates of `pos`, in source order
(left, right, up, down), guarded exactly as in the source:
`px > 0`, `px < w - 1`, `py > 0`, `py < h - 1` with `px = pos % w`,
`py = (pos - px) / w = pos / w`. -/
def neighborCands (w h pos : Nat) : List Nat :=
  (if pos % w > 0 then [pos - 1] else []) ++
  (if pos % w < w - 1 then [pos + 1] else []) ++
  (if pos / w > 0 then [pos - w] else []) ++
  (if pos / w < h - 1 then [pos + w] else [])

/-- The neighbor-push loop body (`for (const n of neighbors) ...`). -/
def pushNbs (w h pos : Nat) (sv : List Nat × List Nat) : List Nat × List Nat :=
  (neighborCands w h pos).foldl pushNb sv

/-- Termination measure of the flood-fill loop: unvisited pixels plus stack
size.  Popping removes one stack entry; every push marks a previously
unvisited pixel, so the measure strictly drops each iteration. -/
def floodMeasure (sv : List Nat × List Nat) : Nat :=
  sv.2.count 0 + sv.1.length

lemma getD_nil {α : Type} (n : Nat) (d : α) : ([] : List α).getD n d = d := by
  cases n <;> rfl

lemma getD_set_ne (l : List Nat) :
    ∀ (n p v d : Nat), p ≠ n → (l.set n v).getD p d = l.getD p d := by
  induction l with
  | nil => intro n p v d _; rfl
  | cons a l ih =>
      intro n p v d h
      cases n with
      | zero =>
          cases p with
          | zero => exact absurd rfl h
          | succ p => rfl
      | succ n =>
          cases p with
          | zero => rfl
          | succ p => exact ih n p v d (fun he => h (by rw [he]))

lemma getD_set_self_or (l : List Nat) :
    ∀ (n v d : Nat), (l.set n v).getD n d = v ∨
      (l.set n v).getD n d = l.getD n d := by
  induction l with
  | nil => intro n v d; right; rfl
  | cons a l ih =>
      intro n v d
      cases n with
      | zero => left; rfl
      | succ n => exact ih n v d

lemma getD_set_self (l : List Nat) :
    ∀ (n v d : Nat), n < l.length → (l.set n v).getD n d = v := by
  induction l with
  | nil => intro n v d h; simp at h
  | cons a l ih =>
      intro n v d h
      cases n with
      | zero => rfl
      | succ n => exact ih n v d (by simpa using h)

/-- Setting a pixel that is currently 0 (with out-of-range defaulting to 1)
removes exactly one zero from the visited array. -/
lemma count_set_of_getD_eq (l : List Nat) :
    ∀ (n : Nat), l.getD n 1 = 0 → (l.set n 1).count 0 + 1 = l.count 0 := by
  induction l with
  | nil => intro n h; rw [getD_nil] at h; exact absurd h (by simp)
  | cons a l ih =>
      intro n h
      cases n with
      | zero =>
          have ha : a = 0 := h
          subst ha
          simp [List.count_cons]
      | succ n =>
          have hrec := ih n h
          simp only [List.set, List.count_cons]
          omega

lemma count_set_le (l : List Nat) :
    ∀ (n v : Nat), v ≠ 0 → (l.set n v).count 0 ≤ l.count 0 := by
  induction l with
  | nil => intro n v _; simp
  | cons a l ih =>
      intro n v hv
      cases n with
      | zero => simp [List.count_cons]; split <;> split <;> omega
      | succ n =>
          have := ih n v hv
          simp only [List.set, List.count_cons]
          omega

lemma pushNb_measure (sv : List Nat × List Nat) (n : Nat) :
    floodMeasure (pushNb sv n) = floodMeasure sv := by
  unfold pushNb
  split
  · next h =>
      have := count_set_of_getD_eq sv.2 n h
      simp [floodMeasure]
      omega
  · rfl

lemma pushNbs_measure_aux (c : List Nat) :
    ∀ sv : List Nat × List Nat,
      floodMeasure (c.foldl pushNb sv) = floodMeasure sv := by
  induction c with
  | nil => intro sv; rfl
  | cons n c ih => intro sv; rw [List.foldl_cons, ih, pushNb_measure]

lemma pushNbs_measure (w h pos : Nat) (sv : List Nat × List Nat) :
    floodMeasure (pushNbs w h pos sv) = floodMeasure sv :=
  pushNbs_measure_aux (neighborCands w h pos) sv

/-- Return-value bookkeeping for the loop: final visited array plus the
number of iterations (pops) performed. -/
def bumpPops (r : List Nat × Nat) : List Nat × Nat := (r.1, r.2 + 1)

/-- The flood-fill traversal loop (`while (stack.length > 0) ...`): pop a
pixel, drop it if its summed channel distance from the seed color exceeds
`tolerance * 3`, otherwise mark it 2 (in the region) and push its unvisited
4-connected neighbors, marking them 1 at push time.  Returns the visited
array and the pop count. -/
def floodLoop (w h : Nat) (img : Nat → RGB) (sc : RGB) :
    List Nat → List Nat → List Nat × Nat
  | [], vis => (vis, 0)
  | pos :: rest, vis =>
      if colorDiff (img pos) sc > tolerance * 3 then
        bumpPops (floodLoop w h img sc rest vis)
      else
        bumpPops (floodLoop w h img sc
          (pushNbs w h pos (rest, vis.set pos 2)).1
          (pushNbs w h pos (rest, vis.set pos 2)).2)
termination_by stack vis => floodMeasure (stack, vis)
decreasing_by
  · simp [floodMeasure]
  · have h₁ : floodMeasure ((pushNbs w h pos (rest, vis.set pos 2)).1,
        (pushNbs w h pos (rest, vis.set pos 2)).2) =
        floodMeasure (rest, vis.set pos 2) := by
      rw [Prod.mk.eta, pushNbs_measure]
    have h₂ := count_set_le vis pos 2 (by omega)
    simp only [floodMeasure, List.length_cons] at h₁ ⊢
    omega

/-- The full traversal as invoked by `floodFillSelect`: stack seeded with
`[x0 + y0 * w]`, visited array `new Uint8Array(w * h)` with the seed marked 1,
seed color read at `(y0 * w + x0) * 4`. -/
def floodVisited (w h : Nat) (img : Nat → RGB) (x0 y0 : Nat) :
    List Nat × Nat :=
  floodLoop w h img (img (y0 * w + x0)) [x0 + y0 * w]
    ((List.replicate (w * h) 0).set (y0 * w + x0) 1)

/-- The merge toggle `selectMode`. -/
inductive SelectMode
  | includeSel
  | excludeSel
deriving DecidableEq

/-- The merge loop `for (let i = 0; i < visited.length; i++) if (visited[i]
=== 2) mask[i] = v` — scanning the mask with running index `i`; a position
where the fill region (`visited = 2`) holds receives `v`, all others keep
their value.  (Writes beyond the mask length are dropped by the typed array
in JS and never produced here.) -/
def mergeMaskFrom (v : Nat) (vis : List Nat) : Nat → List Nat → List Nat
  | _, [] => []
  | i, mi :: rest =>
      (if vis.getD i 0 = 2 then v else mi) :: mergeMaskFrom v vis (i + 1) rest

/-- Merge policy: `include` writes 1 over the fill region, `exclude` writes
0 over it. -/
def mergeMask (mode : SelectMode) (vis m : List Nat) : List Nat :=
  mergeMaskFrom (match mode with | .includeSel => 1 | .excludeSel => 0) vis 0 m

/-- `floodFillSelect(clickX, clickY)`: no-op without an image/canvas; round
the click to integer coordinates (the rounded values are the `Int` inputs
here) and bail out when the seed is out of bounds; otherwise run the
traversal from the seed, create the selection mask if absent
(`new Uint8Array(w*h)`), merge the region per `selectMode`, and recompute
`hasSmartSelection` as `mask.some(v => v === 1)`. -/
def floodFillSelect (img : Nat → RGB) (mode : SelectMode) (x0 y0 : Int)
    (s : EditorState) : EditorState :=
  match s.surface with
  | none => s
  | some surf =>
      if x0 < 0 ∨ (surf.width : Int) ≤ x0 ∨ y0 < 0 ∨ (surf.height : Int) ≤ y0
      then s
      else
        let vis := (floodVisited surf.width surf.height img x0.toNat y0.toNat).1
        let m₀ := s.selectionMask.getD
          (List.replicate (surf.width * surf.height) 0)
        let m₁ := mergeMask mode vis m₀
        { s with selectionMask := some m₁,
                 hasSmartSelection := m₁.any (fun v => v == 1) }

/-- The swap-selection (invert) button: `if (!mask) return;` then flip every
byte (`mask[i] = mask[i] ? 0 : 1`) and recompute `hasSmartSelection`. -/
def invertSelection (s : EditorState) : EditorState :=
  match s.selectionMask with
  | none => s
  | some m =>
      let m' := m.map (fun v => if v ≠ 0 then 0 else 1)
      { s with selectionMask := some m',
               hasSmartSelection := m'.any (fun v => v == 1) }

lemma pushNb_getD_two (sv : List Nat × List Nat) (n p : Nat)
    (h : (pushNb sv n).2.getD p 0 = 2) : sv.2.getD p 0 = 2 := by
  unfold pushNb at h
  split at h
  · simp only at h
    by_cases hpn : p = n
    · subst hpn
      rcases getD_set_self_or sv.2 p 1 0 with h₁ | h₁
      · rw [h₁] at h; omega
      · rw [h₁] at h; exact h
    · rw [getD_set_ne sv.2 n p 1 0 hpn] at h; exact h
  · exact h

lemma pushNbs_getD_two_aux (c : List Nat) :
    ∀ (sv : List Nat × List Nat) (p : Nat),
      ((c.foldl pushNb sv).2.getD p 0 = 2) → sv.2.getD p 0 = 2 := by
  induction c with
  | nil => intro sv p h; exact h
  | cons n c ih =>
      intro sv p h
      exact pushNb_getD_two sv n p (ih (pushNb sv n) p h)

/-- Only the tolerance-check success path ever writes 2: any pixel marked as
part of the fill region either was already 2 or passed the
`dr + dg + db ≤ tolerance * 3` check. -/
lemma floodLoop_sound (w h : Nat) (img : Nat → RGB) (sc : RGB) :
    ∀ (stack vis : List Nat) (p : Nat),
      (floodLoop w h img sc stack vis).1.getD p 0 = 2 →
      vis.getD p 0 = 2 ∨ colorDiff (img p) sc ≤ tolerance * 3 := by
  intro stack vis
  induction stack, vis using floodLoop.induct w h img sc with
  | case1 vis => intro p hp; rw [floodLoop] at hp; left; exact hp
  | case2 pos rest vis hc ih =>
      intro p hp
      rw [floodLoop, if_pos hc] at hp
      exact ih p hp
  | case3 pos rest vis hc ih =>
      intro p hp
      rw [floodLoop, if_neg hc] at hp
      rcases ih p hp with h₂ | h₂
      · have h₃ := pushNbs_getD_two_aux (neighborCands w h pos)
          (rest, vis.set pos 2) p h₂
        simp only at h₃
        by_cases hpp : p = pos
        · subst hpp; right; omega
        · left; rw [getD_set_ne vis pos p 2 0 hpp] at h₃; exact h₃
      · right; exact h₂

/-- A two-pixel-wide test image: the seed pixel is black, every other pixel
differs from it by `d` in the red channel only. -/
def seedPlus (d : Nat) : Nat → RGB :=
  fun pos => if pos = 0 then ⟨0, 0, 0⟩ else ⟨d, 0, 0⟩

/-- Claim C4.  A pixel enters the fill region only if its summed per-channel
distance from the seed color is at most `tolerance * 3 = 96` (first
conjunct, for every reachable pixel of every run); and the boundary is
exact: flood-filling a 2×1 image from the left pixel selects a neighbor at
channel-difference sum 96 but rejects one at 97 (remaining conjuncts). -/
theorem flood_tolerance_boundary :
    (∀ (w h : Nat) (img : Nat → RGB) (sc : RGB) (stack vis : List Nat)
        (p : Nat),
        vis.getD p 0 ≠ 2 →
        (floodLoop w h img sc stack vis).1.getD p 0 = 2 →
        colorDiff (img p) sc ≤ tolerance * 3) ∧
    (floodFillSelect (seedPlus 96) .includeSel 0 0
        (blankEditor 2 1 ⟨2, 1, List.replicate 8 0⟩)).selectionMask =
      some [1, 1] ∧
    (floodFillSelect (seedPlus 97) .includeSel 0 0
        (blankEditor 2 1 ⟨2, 1, List.replicate 8 0⟩)).selectionMask =
      some [1, 0] := by
  refine ⟨?_, ?_, ?_⟩
  case refine_2 =>
    simp [floodFillSelect, floodVisited, floodLoop, mergeMask, mergeMaskFrom,
      pushNbs, neighborCands, pushNb, seedPlus, colorDiff, tolerance,
      Nat.dist, bumpPops, blankEditor]
  case refine_3 =>
    simp [floodFillSelect, floodVisited, floodLoop, mergeMask, mergeMaskFrom,
      pushNbs, neighborCands, pushNb, seedPlus, colorDiff, tolerance,
      Nat.dist, bumpPops, blankEditor]
  intro w h img sc stack vis p hne hp
  rcases floodLoop_sound w h img sc stack vis p hp with h | h
  · exact absurd h hne
  · exact h

/-- Claim C4 witness: the 2×1 run at the exact boundary value 96 reaches the
neighbor pixel and its color distance is within tolerance. -/
theorem flood_tolerance_boundary_witness :
    colorDiff (seedPlus 96 1) (seedPlus 96 0) ≤ tolerance * 3 :=
  flood_tolerance_boundary.1 2 1 (seedPlus 96) (seedPlus 96 0) [0 + 0 * 2]
    ((List.replicate 2 0).set 0 1) 1 (by decide)
    (by simp [floodLoop, pushNbs, neighborCands, pushNb, seedPlus, colorDiff,
      tolerance, Nat.dist, bumpPops])

lemma floodLoop_pops_le (w h : Nat) (img : Nat → RGB) (sc : RGB) :
    ∀ (stack vis : List Nat),
      (floodLoop w h img sc stack vis).2 ≤ floodMeasure (stack, vis) := by
  intro stack vis
  induction stack, vis using floodLoop.induct w h img sc with
  | case1 vis => rw [floodLoop]; simp [floodMeasure]
  | case2 pos rest vis hc ih =>
      rw [floodLoop, if_pos hc]
      simp only [bumpPops, floodMeasure, List.length_cons] at ih ⊢
      omega
  | case3 pos rest vis hc ih =>
      rw [floodLoop, if_neg hc]
      have hm : floodMeasure ((pushNbs w h pos (rest, vis.set pos 2)).1,
          (pushNbs w h pos (rest, vis.set pos 2)).2) =
          floodMeasure (rest, vis.set pos 2) := by
        rw [Prod.mk.eta, pushNbs_measure]
      have h₂ := count_set_le vis pos 2 (by omega)
      simp only [bumpPops, floodMeasure, List.length_cons] at ih hm ⊢
      omega

lemma getD_replicate (n : Nat) :
    ∀ (k d : Nat), k < n → (List.replicate n (0 : Nat)).getD k d = 0 := by
  induction n with
  | zero => intro k d h; omega
  | succ n ih =>
      intro k d h
      cases k with
      | zero => rfl
      | succ k => exact ih k d (by omega)

lemma count_replicate_zero (n : Nat) :
    (List.replicate n (0 : Nat)).count 0 = n := by
  induction n with
  | zero => rfl
  | succ n ih => simp [List.replicate, List.count_cons, ih]

/-- Claim C9.  The flood fill is an iterative loop over an explicit stack;
a pixel is pushed only while unvisited and is marked visited at push time
(`pushNb`), so the pop count of any full run from an in-bounds seed is at
most `w * h` — and the loop terminates (`floodLoop` is total, defined by
well-founded recursion on `floodMeasure`, and explores only the 4-connected
neighbor candidates `neighborCands`). -/
theorem flood_pops_bounded (w h : Nat) (img : Nat → RGB) (x0 y0 : Nat)
    (hx : x0 < w) (hy : y0 < h) :
    (floodVisited w h img x0 y0).2 ≤ w * h := by
  have hpos : y0 * w + x0 < w * h := by
    calc y0 * w + x0 < y0 * w + w := by omega
    _ = (y0 + 1) * w := by ring
    _ ≤ h * w := Nat.mul_le_mul_right w (by omega)
    _ = w * h := Nat.mul_comm h w
  have hgd : (List.replicate (w * h) (0 : Nat)).getD (y0 * w + x0) 1 = 0 :=
    getD_replicate (w * h) (y0 * w + x0) 1 hpos
  have hcnt := count_set_of_getD_eq (List.replicate (w * h) 0)
    (y0 * w + x0) hgd
  rw [count_replicate_zero] at hcnt
  have hle := floodLoop_pops_le w h img (img (y0 * w + x0)) [x0 + y0 * w]
    ((List.replicate (w * h) 0).set (y0 * w + x0) 1)
  unfold floodVisited
  simp only [floodMeasure, List.length_cons, List.length_nil] at hle
  omega

/-- Claim C9 witness: a 2×2 all-black image flood-filled from its corner
pops at most 4 pixels. -/
theorem flood_pops_bounded_witness :
    (floodVisited 2 2 (fun _ => ⟨0, 0, 0⟩) 0 0).2 ≤ 2 * 2 :=
  flood_pops_bounded 2 2 (fun _ => ⟨0, 0, 0⟩) 0 0 (by omega) (by omega)

lemma mergeMaskFrom_one_idem (vis : List Nat) (m : List Nat) :
    ∀ (i : Nat),
      mergeMaskFrom 1 vis i (mergeMaskFrom 1 vis i m) =
        mergeMaskFrom 1 vis i m := by
  induction m with
  | nil => intro i; rfl
  | cons mi rest ih =>
      intro i
      simp only [mergeMaskFrom]
      rw [ih (i + 1)]
      congr 1
      split_ifs <;> rfl

lemma mergeMask_include_idem (vis m : List Nat) :
    mergeMask .includeSel vis (mergeMask .includeSel vis m) =
      mergeMask .includeSel vis m :=
  mergeMaskFrom_one_idem vis m 0

lemma mergeMaskFrom_cancel (vis : List Nat) (k : Nat) :
    ∀ (i : Nat),
      mergeMaskFrom 0 vis i (mergeMaskFrom 1 vis i (List.replicate k 0)) =
        List.replicate k 0 := by
  induction k with
  | zero => intro i; rfl
  | succ k ih =>
      intro i
      rw [List.replicate_succ]
      simp only [mergeMaskFrom]
      rw [ih (i + 1)]
      congr 1
      split_ifs <;> rfl

lemma any_replicate_zero (n : Nat) :
    (List.replicate n (0 : Nat)).any (fun v => v == 1) = false := by
  induction n with
  | zero => rfl
  | succ n ih => simp [List.replicate_succ, ih]

/-- Claim C6.  First conjunct: performing the same in-bounds flood fill twice
in `include` mode yields exactly the same editor state as performing it once
(the fill region depends only on the image and the seed, and OR-ing it in is
idempotent; the no-surface and out-of-bounds no-op cases are trivially
idempotent too).  Second conjunct: starting with no selection, filling in
`include` mode and then in `exclude` mode at the same seed leaves a mask
with no set pixels, so the derived `hasSmartSelection` flag is `false`. -/
theorem floodfill_idempotent_cancelling :
    (∀ (img : Nat → RGB) (x0 y0 : Int) (s : EditorState),
        floodFillSelect img .includeSel x0 y0
            (floodFillSelect img .includeSel x0 y0 s) =
          floodFillSelect img .includeSel x0 y0 s) ∧
    (∀ (img : Nat → RGB) (x0 y0 : Int) (s : EditorState) (surf : Surface),
        s.surface = some surf → s.selectionMask = none →
        0 ≤ x0 → x0 < (surf.width : Int) → 0 ≤ y0 → y0 < (surf.height : Int) →
        (floodFillSelect img .excludeSel x0 y0
            (floodFillSelect img .includeSel x0 y0 s)).selectionMask =
          some (List.replicate (surf.width * surf.height) 0) ∧
        (floodFillSelect img .excludeSel x0 y0
            (floodFillSelect img .includeSel x0 y0 s)).hasSmartSelection =
          false) := by
  constructor
  · intro img x0 y0 s
    obtain ⟨nw, nh, srf, sel, hsel, us, rs⟩ := s
    cases srf with
    | none => rfl
    | some surf =>
        by_cases hb : (x0 < 0 ∨ (surf.width : Int) ≤ x0 ∨ y0 < 0 ∨
            (surf.height : Int) ≤ y0)
        · simp [floodFillSelect, hb]
        · simp only [floodFillSelect, if_neg hb, Option.getD_some]
          rw [mergeMask_include_idem]
  · intro img x0 y0 s surf hsurf hmask hx0 hx1 hy0 hy1
    obtain ⟨nw, nh, srf, sel, hsel, us, rs⟩ := s
    simp only at hsurf hmask
    subst hsurf
    subst hmask
    have hb : ¬(x0 < 0 ∨ (surf.width : Int) ≤ x0 ∨ y0 < 0 ∨
        (surf.height : Int) ≤ y0) := by omega
    simp only [floodFillSelect, if_neg hb, Option.getD_some, Option.getD_none]
    rw [show mergeMask SelectMode.excludeSel
        (floodVisited surf.width surf.height img x0.toNat y0.toNat).1
        (mergeMask SelectMode.includeSel
          (floodVisited surf.width surf.height img x0.toNat y0.toNat).1
          (List.replicate (surf.width * surf.height) 0)) =
        List.replicate (surf.width * surf.height) 0 from
      mergeMaskFrom_cancel _ _ 0]
    exact ⟨rfl, any_replicate_zero _⟩

/-- Claim C6 witness: on a 2×1 all-black image, include-then-exclude at the
same seed empties the mask and clears the flag. -/
theorem floodfill_idempotent_cancelling_witness :
    (floodFillSelect (fun _ => ⟨0, 0, 0⟩) .excludeSel 0 0
        (floodFillSelect (fun _ => ⟨0, 0, 0⟩) .includeSel 0 0
          (blankEditor 2 1 ⟨2, 1, List.replicate 8 0⟩))).hasSmartSelection =
      false :=
  (floodfill_idempotent_cancelling.2 (fun _ => ⟨0, 0, 0⟩) 0 0
    (blankEditor 2 1 ⟨2, 1, List.replicate 8 0⟩) ⟨2, 1, List.replicate 8 0⟩
    rfl rfl (by omega) (by decide) (by omega) (by decide)).2

/-- Claim C7.  Invoking invert (swap-selection) with no active selection is a
no-op: the handler returns before touching anything (`if (!mask) return`),
the mask stays absent, and `hasSmartSelection` stays `false`; in particular
nothing becomes selected. -/
theorem invert_empty_selection_noop (s : EditorState)
    (h : s.selectionMask = none) (hflag : s.hasSmartSelection = false) :
    invertSelection s = s ∧ (invertSelection s).selectionMask = none ∧
      (invertSelection s).hasSmartSelection = false := by
  have hid : invertSelection s = s := by
    obtain ⟨nw, nh, srf, sel, hsel, us, rs⟩ := s
    simp only at h
    subst h
    rfl
  exact ⟨hid, by rw [hid, h], by rw [hid, hflag]⟩

/-- Claim C7 witness: invert on a freshly loaded editor (no selection). -/
theorem invert_empty_selection_noop_witness :
    invertSelection (blankEditor 2 1 ⟨2, 1, List.replicate 8 0⟩) =
      blankEditor 2 1 ⟨2, 1, List.replicate 8 0⟩ :=
  (invert_empty_selection_noop (blankEditor 2 1 ⟨2, 1, List.replicate 8 0⟩)
    rfl rfl).1

/-- The display sizing effect of the standalone editor page:
`ratio = naturalHeight / naturalWidth`, `displayW = Math.min(maxW, 900)`,
`displayH = displayW * ratio`, and if `displayH > maxH` the reflow
`displayH = maxH; displayW = displayH / ratio`.  JS float arithmetic is
embedded as exact rational arithmetic; the subsequent assignment to
`canvas.width`/`canvas.height` truncates to integers and can only shrink the
values, so the `≤` bounds below survive it. -/
def computeDisplaySize (natW natH maxW maxH : ℚ) : ℚ × ℚ :=
  if min maxW 900 * (natH / natW) > maxH then
    (maxH / (natH / natW), maxH)
  else
    (min maxW 900, min maxW 900 * (natH / natW))

/-- Claim C5.  For all valid (positive) inputs, the computed display size
keeps the source aspect ratio exactly (`displayW / displayH = W / H`, which
is certainly within one pixel of rounding error) and respects both container
bounds: `displayW ≤ maxW` and `displayH ≤ maxH`. -/
theorem display_size_aspect_bounds (natW natH maxW maxH : ℚ)
    (hW : 0 < natW) (hH : 0 < natH) (hmW : 0 < maxW) (hmH : 0 < maxH) :
    (computeDisplaySize natW natH maxW maxH).1 /
        (computeDisplaySize natW natH maxW maxH).2 = natW / natH ∧
    (computeDisplaySize natW natH maxW maxH).1 ≤ maxW ∧
    (computeDisplaySize natW natH maxW maxH).2 ≤ maxH := by
  have hrat : 0 < natH / natW := div_pos hH hW
  have hmin : 0 < min maxW 900 := lt_min hmW (by norm_num)
  unfold computeDisplaySize
  split_ifs with hre
  · refine ⟨?_, ?_, le_refl maxH⟩
    · show maxH / (natH / natW) / maxH = natW / natH
      field_simp
      ring
    · show maxH / (natH / natW) ≤ maxW
      have h₂ : min maxW 900 * (natH / natW) ≤ maxW * (natH / natW) :=
        mul_le_mul_of_nonneg_right (min_le_left maxW 900) hrat.le
      have h₃ : maxH < maxW * (natH / natW) := lt_of_lt_of_le hre h₂
      exact le_of_lt ((div_lt_iff₀ hrat).mpr h₃)
  · refine ⟨?_, min_le_left maxW 900, not_lt.mp hre⟩
    show min maxW 900 / (min maxW 900 * (natH / natW)) = natW / natH
    rw [div_mul_eq_div_div]
    rw [div_self hmin.ne']
    rw [one_div, inv_div]

/-- Claim C5 witness: a 1024×1024 image in a 1200×600 container reflows to a
600×600 display surface. -/
theorem display_size_aspect_bounds_witness :
    (computeDisplaySize 1024 1024 1200 600).2 ≤ 600 :=
  (display_size_aspect_bounds 1024 1024 1200 600 (by norm_num) (by norm_num)
    (by norm_num) (by norm_num)).2.2

/-- Alpha byte of display pixel `(dx, dy)`:
`displayData.data[(dy * canvas.width + dx) * 4 + 3]`. -/
def displayAlpha (surf : Surface) (dx dy : Nat) : Nat :=
  surf.data.getD ((dy * surf.width + dx) * 4 + 3) 0

/-- `Math.floor(d * scale)` with `scale = nat / disp` — exactly `d * nat / disp`
in natural division. -/
def blockStart (nat disp d : Nat) : Nat := d * nat / disp

/-- `Math.max(1, Math.ceil(scale))` — the ceiling of `nat / disp` is
`(nat + disp - 1) / disp` in natural division. -/
def blockSize (nat disp : Nat) : Nat := max 1 ((nat + disp - 1) / disp)

/-- The flat index written by the inner block loop:
`fx = Math.min(tx + bx, maskW - 1)`, `fy = Math.min(ty + by, maskH - 1)`,
`di = (fy * maskW + fx) * 4`, write at `di + 3`. -/
def clearIndex (natW natH tx ty bi bj : Nat) : Nat :=
  (min (ty + bj) (natH - 1) * natW + min (tx + bi) (natW - 1)) * 4 + 3

/-- The mask canvas after `fillStyle = "black"; fillRect(...)`: every pixel is
opaque black, RGBA `(0, 0, 0, 255)`. -/
def initMaskData (natW natH : Nat) : List Nat :=
  (List.replicate (natW * natH) [0, 0, 0, 255]).flatten

/-- The block-clearing double loop for one painted display pixel
(`for (let by = 0; by < bh; by++) for (let bx = 0; bx < bw; bx++) ...
maskData.data[di + 3] = 0`). -/
def blockClear (natW natH tx ty bw bh : Nat) (md : List Nat) : List Nat :=
  (List.range bh).foldl (fun md₁ bj =>
    (List.range bw).foldl (fun md₂ bi =>
      md₂.set (clearIndex natW natH tx ty bi bj) 0) md₁) md

/-- One iteration of the display-pixel scan: clear the corresponding native
block iff the painted alpha exceeds the noise threshold 10. -/
def processPixel (natW natH : Nat) (surf : Surface) (md : List Nat)
    (dx dy : Nat) : List Nat :=
  if displayAlpha surf dx dy > 10 then
    blockClear natW natH (blockStart natW surf.width dx)
      (blockStart natH surf.height dy)
      (blockSize natW surf.width) (blockSize natH surf.height) md
  else md

/-- All display pixels in source scan order (`dy` outer, `dx` inner),
as `(dx, dy)` pairs. -/
def displayPixels (w h : Nat) : List (Nat × Nat) :=
  (List.range h).flatMap (fun dy => (List.range w).map (fun dx => (dx, dy)))

/-- The exported mask pixel buffer: scan every display pixel over the
black-initialized native-resolution buffer. -/
def exportMaskData (natW natH : Nat) (surf : Surface) : List Nat :=
  (displayPixels surf.width surf.height).foldl
    (fun md p => processPixel natW natH surf md p.1 p.2)
    (initMaskData natW natH)

/-- `exportMask()`: returns `null` when no canvas exists; otherwise reads the
display pixels (`getImageData` — a pure read), builds the mask on a freshly
created offscreen canvas, and returns it (the PNG data-URL encoding of the
finished buffer is abstracted away).  The editor state is threaded through
unchanged: the source writes only to the local `maskCanvas`/`maskData`. -/
def exportMask (s : EditorState) : Option Surface × EditorState :=
  match s.surface with
  | none => (none, s)
  | some surf =>
      (some ⟨s.natW, s.natH, exportMaskData s.natW s.natH surf⟩, s)

/-- Alpha byte of native pixel `(nx, ny)` of the exported mask. -/
def exportAlpha (natW natH : Nat) (surf : Surface) (nx ny : Nat) : Nat :=
  (exportMaskData natW natH surf).getD ((ny * natW + nx) * 4 + 3) 0

/-- Native pixel `(nx, ny)` lies in the clamped native block the exporter
clears for display pixel `(dx, dy)`. -/
def inClampedBlock (natW natH : Nat) (surf : Surface) (dx dy nx ny : Nat) :
    Prop :=
  ∃ bi, bi < blockSize natW surf.width ∧
    ∃ bj, bj < blockSize natH surf.height ∧
      nx = min (blockStart natW surf.width dx + bi) (natW - 1) ∧
      ny = min (blockStart natH surf.height dy + bj) (natH - 1)

/-- One axis of the spec's notion of the native projection of a display
pixel: the native-coordinate footprint `[d*(nat/disp), (d+1)*(nat/disp))` of
display cell `d` overlaps native pixel `[n, n+1)` — written multiplied out so
no real division is needed: `d*nat < (n+1)*disp` and `n*disp < (d+1)*nat`. -/
def coversNative (nat disp d n : Nat) : Prop :=
  d * nat < (n + 1) * disp ∧ n * disp < (d + 1) * nat

instance (natW natH : Nat) (surf : Surface) (dx dy nx ny : Nat) :
    Decidable (inClampedBlock natW natH surf dx dy nx ny) := by
  unfold inClampedBlock
  exact inferInstance

instance (nat disp d n : Nat) : Decidable (coversNative nat disp d n) := by
  unfold coversNative
  exact inferInstance

lemma foldl_preserve_length {α : Type} (L : List α)
    (g : List Nat → α → List Nat) (hg : ∀ m a, (g m a).length = m.length) :
    ∀ md : List Nat, (L.foldl g md).length = md.length := by
  induction L with
  | nil => intro md; rfl
  | cons a L ih => intro md; rw [List.foldl_cons, ih, hg]

/-- Folding a list of in-range writes of 0: a position reads 0 exactly if it
is one of the written targets, and is otherwise untouched. -/
lemma foldl_set_getD (ts : List Nat) :
    ∀ (md : List Nat) (q : Nat), (∀ t ∈ ts, t < md.length) →
      ((ts.foldl (fun m t => m.set t 0) md).getD q 0) =
        if q ∈ ts then 0 else md.getD q 0 := by
  induction ts with
  | nil => intro md q _; simp
  | cons t ts ih =>
      intro md q hin
      rw [List.foldl_cons, ih (md.set t 0) q (by
        intro x hx
        rw [List.length_set]
        exact hin x (List.mem_cons_of_mem t hx))]
      by_cases hq : q ∈ ts
      · simp [hq]
      · rw [if_neg hq]
        by_cases hqt : q = t
        · subst hqt
          rw [getD_set_self md q 0 0 (hin q (List.mem_cons_self q ts))]
          simp
        · rw [getD_set_ne md t q 0 0 hqt]
          simp [List.mem_cons, hqt, hq]

/-- A nested pair of `foldl` loops equals a single `foldl` over the flattened
pair list (inner index first). -/
lemma foldl_nested_flatMap {α β γ : Type} (L₁ : List α) :
    ∀ (md : γ) (L₂ : List β) (g : γ → β → α → γ),
      L₁.foldl (fun m a => L₂.foldl (fun m' b => g m' b a) m) md =
        (L₁.flatMap (fun a => L₂.map (fun b => (b, a)))).foldl
          (fun m p => g m p.1 p.2) md := by
  induction L₁ with
  | nil => intros; rfl
  | cons a L₁ ih =>
      intro md L₂ g
      rw [List.foldl_cons, ih, List.flatMap_cons, List.foldl_append,
        List.foldl_map]

/-- The flat list of indices the block loop for one painted pixel writes. -/
def blockIndexList (natW natH tx ty bw bh : Nat) : List Nat :=
  ((List.range bh).flatMap (fun bj =>
    (List.range bw).map (fun bi => (bi, bj)))).map
      (fun p => clearIndex natW natH tx ty p.1 p.2)

lemma blockClear_eq (natW natH tx ty bw bh : Nat) (md : List Nat) :
    blockClear natW natH tx ty bw bh md =
      (blockIndexList natW natH tx ty bw bh).foldl
        (fun m t => m.set t 0) md := by
  unfold blockClear blockIndexList
  rw [foldl_nested_flatMap, List.foldl_map]

lemma mem_blockIndexList (natW natH tx ty bw bh q : Nat) :
    q ∈ blockIndexList natW natH tx ty bw bh ↔
      ∃ bi, bi < bw ∧ ∃ bj, bj < bh ∧
        q = clearIndex natW natH tx ty bi bj := by
  unfold blockIndexList
  simp only [List.mem_map, List.mem_flatMap, List.mem_range]
  constructor
  · rintro ⟨⟨bi, bj⟩, ⟨bj', hbj, ⟨bi', hbi, heq⟩⟩, hq⟩
    cases heq
    exact ⟨bi, hbi, bj, hbj, hq.symm⟩
  · rintro ⟨bi, hbi, bj, hbj, hq⟩
    exact ⟨(bi, bj), ⟨bj, hbj, ⟨bi, hbi, rfl⟩⟩, hq.symm⟩

lemma clearIndex_lt (natW natH tx ty bi bj : Nat) (hW : 0 < natW)
    (hH : 0 < natH) : clearIndex natW natH tx ty bi bj < natW * natH * 4 := by
  unfold clearIndex
  set m := min (ty + bj) (natH - 1) with hm
  set n := min (tx + bi) (natW - 1) with hn
  have h₁ : m ≤ natH - 1 := min_le_right _ _
  have h₂ : n ≤ natW - 1 := min_le_right _ _
  have h₃ : m * natW ≤ (natH - 1) * natW := Nat.mul_le_mul_right natW h₁
  have h₄ : (natH - 1) * natW = natH * natW - natW := Nat.sub_one_mul natH natW
  have h₅ : natW * natH = natH * natW := Nat.mul_comm natW natH
  have h₆ : natW ≤ natH * natW := Nat.le_mul_of_pos_left natW hH
  omega

lemma blockClear_length (natW natH tx ty bw bh : Nat) (md : List Nat) :
    (blockClear natW natH tx ty bw bh md).length = md.length := by
  rw [blockClear_eq]
  exact foldl_preserve_length _ _ (fun m t => List.length_set m t 0) md

lemma blockClear_getD (natW natH tx ty bw bh : Nat) (md : List Nat) (q : Nat)
    (hW : 0 < natW) (hH : 0 < natH) (hlen : md.length = natW * natH * 4) :
    (blockClear natW natH tx ty bw bh md).getD q 0 =
      if q ∈ blockIndexList natW natH tx ty bw bh then 0
      else md.getD q 0 := by
  rw [blockClear_eq]
  apply foldl_set_getD
  intro t ht
  rw [mem_blockIndexList] at ht
  obtain ⟨bi, _, bj, _, rfl⟩ := ht
  rw [hlen]
  exact clearIndex_lt natW natH tx ty bi bj hW hH

lemma flatten_replicate_length (n : Nat) :
    ((List.replicate n ([0, 0, 0, 255] : List Nat)).flatten).length =
      n * 4 := by
  induction n with
  | zero => rfl
  | succ n ih =>
      rw [List.replicate_succ, List.flatten_cons, List.length_append, ih]
      simp
      omega

lemma initMaskData_length (natW natH : Nat) :
    (initMaskData natW natH).length = natW * natH * 4 :=
  flatten_replicate_length (natW * natH)

lemma flatten_replicate_getD (n : Nat) :
    ∀ k : Nat, k < n →
      ((List.replicate n ([0, 0, 0, 255] : List Nat)).flatten).getD
        (k * 4 + 3) 0 = 255 := by
  induction n with
  | zero => intro k hk; omega
  | succ n ih =>
      intro k hk
      rw [List.replicate_succ, List.flatten_cons]
      cases k with
      | zero => rfl
      | succ k =>
          have he : (k + 1) * 4 + 3 = (k * 4 + 3) + 1 + 1 + 1 + 1 := by ring
          rw [he]
          show (0 :: 0 :: 0 :: 255 ::
            (List.replicate n ([0, 0, 0, 255] : List Nat)).flatten).getD
              (k * 4 + 3 + 1 + 1 + 1 + 1) 0 = 255
          rw [List.getD_cons_succ, List.getD_cons_succ, List.getD_cons_succ,
            List.getD_cons_succ]
          exact ih k (by omega)

/-- The black-initialized mask is fully opaque. -/
lemma initMaskData_alpha (natW natH k : Nat) (hk : k < natW * natH) :
    (initMaskData natW natH).getD (k * 4 + 3) 0 = 255 :=
  flatten_replicate_getD (natW * natH) k hk

lemma processPixel_length (natW natH : Nat) (surf : Surface) (md : List Nat)
    (dx dy : Nat) :
    (processPixel natW natH surf md dx dy).length = md.length := by
  unfold processPixel
  split
  · exact blockClear_length _ _ _ _ _ _ md
  · rfl

lemma processPixel_getD (natW natH : Nat) (surf : Surface) (md : List Nat)
    (dx dy q : Nat) (hW : 0 < natW) (hH : 0 < natH)
    (hlen : md.length = natW * natH * 4) :
    (processPixel natW natH surf md dx dy).getD q 0 =
      if displayAlpha surf dx dy > 10 ∧
          q ∈ blockIndexList natW natH (blockStart natW surf.width dx)
            (blockStart natH surf.height dy) (blockSize natW surf.width)
            (blockSize natH surf.height)
      then 0 else md.getD q 0 := by
  unfold processPixel
  split
  · next hp =>
      rw [blockClear_getD natW natH _ _ _ _ md q hW hH hlen]
      by_cases hq : q ∈ blockIndexList natW natH
          (blockStart natW surf.width dx) (blockStart natH surf.height dy)
          (blockSize natW surf.width) (blockSize natH surf.height)
      · rw [if_pos hq, if_pos ⟨hp, hq⟩]
      · rw [if_neg hq, if_neg (fun hc => hq hc.2)]
  · next hp =>
      rw [if_neg (fun hc => hp hc.1)]

lemma foldPixels_getD (natW natH : Nat) (surf : Surface) (hW : 0 < natW)
    (hH : 0 < natH) (pixels : List (Nat × Nat)) :
    ∀ (md : List Nat) (q : Nat), md.length = natW * natH * 4 →
      ((pixels.foldl (fun m p => processPixel natW natH surf m p.1 p.2)
          md).getD q 0) =
        if ∃ p ∈ pixels, displayAlpha surf p.1 p.2 > 10 ∧
            q ∈ blockIndexList natW natH (blockStart natW surf.width p.1)
              (blockStart natH surf.height p.2) (blockSize natW surf.width)
              (blockSize natH surf.height)
        then 0 else md.getD q 0 := by
  induction pixels with
  | nil => intro md q _; simp
  | cons p ps ih =>
      intro md q hlen
      rw [List.foldl_cons, ih (processPixel natW natH surf md p.1 p.2) q
        (by rw [processPixel_length, hlen])]
      by_cases hps : ∃ p' ∈ ps, displayAlpha surf p'.1 p'.2 > 10 ∧
          q ∈ blockIndexList natW natH (blockStart natW surf.width p'.1)
            (blockStart natH surf.height p'.2) (blockSize natW surf.width)
            (blockSize natH surf.height)
      · rw [if_pos hps]
        obtain ⟨p', hp', hrest⟩ := hps
        rw [if_pos ⟨p', List.mem_cons_of_mem p hp', hrest⟩]
      · rw [if_neg hps,
          processPixel_getD natW natH surf md p.1 p.2 q hW hH hlen]
        by_cases hp : displayAlpha surf p.1 p.2 > 10 ∧
            q ∈ blockIndexList natW natH (blockStart natW surf.width p.1)
              (blockStart natH surf.height p.2) (blockSize natW surf.width)
              (blockSize natH surf.height)
        · rw [if_pos hp, if_pos ⟨p, List.mem_cons_self p ps, hp⟩]
        · rw [if_neg hp]
          rw [if_neg ?hcond]
          case hcond =>
            rintro ⟨p', hm, hrest⟩
            rcases List.mem_cons.mp hm with heq | hmem
            · exact hp (heq ▸ hrest)
            · exact hps ⟨p', hmem, hrest⟩

lemma mem_displayPixels (w h : Nat) (dx dy : Nat) :
    (dx, dy) ∈ displayPixels w h ↔ dx < w ∧ dy < h := by
  unfold displayPixels
  constructor
  · intro hmem
    rw [List.mem_flatMap] at hmem
    obtain ⟨a, ha, hm⟩ := hmem
    rw [List.mem_map] at hm
    obtain ⟨x, hx, heq⟩ := hm
    cases heq
    exact ⟨List.mem_range.mp hx, List.mem_range.mp ha⟩
  · rintro ⟨h₁, h₂⟩
    rw [List.mem_flatMap]
    exact ⟨dy, List.mem_range.mpr h₂,
      List.mem_map.mpr ⟨dx, List.mem_range.mpr h₁, rfl⟩⟩

lemma rowcol_lt (W H x y : Nat) (hx : x < W) (hy : y < H) :
    y * W + x < W * H := by
  calc y * W + x < y * W + W := by omega
  _ = (y + 1) * W := by ring
  _ ≤ H * W := Nat.mul_le_mul_right W (by omega)
  _ = W * H := Nat.mul_comm H W

lemma rowcol_inj (W fx nx fy ny : Nat) (h₁ : fx < W) (h₂ : nx < W)
    (h : fy * W + fx = ny * W + nx) : fy = ny ∧ fx = nx := by
  have hW : 0 < W := by omega
  have h' : W * fy + fx = W * ny + nx := by
    rw [Nat.mul_comm W fy, Nat.mul_comm W ny]; exact h
  have e₁ : (W * fy + fx) / W = fy := by
    rw [Nat.mul_add_div hW, Nat.div_eq_of_lt h₁]
    omega
  have e₂ : (W * ny + nx) / W = ny := by
    rw [Nat.mul_add_div hW, Nat.div_eq_of_lt h₂]
    omega
  have hf : fy = ny := by rw [← e₁, ← e₂, h']
  refine ⟨hf, ?_⟩
  rw [hf] at h
  omega

/-- Pointwise description of the exported alpha channel: a native pixel is
transparent exactly when it lies in the clamped block of some painted
display pixel, and is otherwise untouched opaque black. -/
lemma exportAlpha_characterization (natW natH : Nat) (surf : Surface)
    (hW : 0 < natW) (hH : 0 < natH) (nx ny : Nat) (hnx : nx < natW)
    (hny : ny < natH) :
    exportAlpha natW natH surf nx ny =
      if ∃ dx, dx < surf.width ∧ ∃ dy, dy < surf.height ∧
          displayAlpha surf dx dy > 10 ∧
          inClampedBlock natW natH surf dx dy nx ny
      then 0 else 255 := by
  unfold exportAlpha exportMaskData
  rw [foldPixels_getD natW natH surf hW hH _ _ _
    (initMaskData_length natW natH)]
  rw [initMaskData_alpha natW natH _ (rowcol_lt natW natH nx ny hnx hny)]
  refine if_congr ?_ rfl rfl
  constructor
  · rintro ⟨⟨dx, dy⟩, hmem, hpaint, hqb⟩
    obtain ⟨hdx, hdy⟩ := (mem_displayPixels surf.width surf.height dx dy).mp
      hmem
    rw [mem_blockIndexList] at hqb
    obtain ⟨bi, hbi, bj, hbj, hq⟩ := hqb
    unfold clearIndex at hq
    have hstrip : ny * natW + nx =
        min (blockStart natH surf.height dy + bj) (natH - 1) * natW +
          min (blockStart natW surf.width dx + bi) (natW - 1) := by
      set A := ny * natW + nx with hA
      set B := min (blockStart natH surf.height dy + bj) (natH - 1) * natW +
        min (blockStart natW surf.width dx + bi) (natW - 1) with hB
      omega
    have hfx : min (blockStart natW surf.width dx + bi) (natW - 1) < natW := by
      have := min_le_right (blockStart natW surf.width dx + bi) (natW - 1)
      omega
    have hco := rowcol_inj natW
      (min (blockStart natW surf.width dx + bi) (natW - 1)) nx
      (min (blockStart natH surf.height dy + bj) (natH - 1)) ny
      hfx hnx hstrip.symm
    exact ⟨dx, hdx, dy, hdy, hpaint,
      bi, hbi, bj, hbj, hco.2.symm, hco.1.symm⟩
  · rintro ⟨dx, hdx, dy, hdy, hpaint, bi, hbi, bj, hbj, hnx', hny'⟩
    refine ⟨(dx, dy),
      (mem_displayPixels surf.width surf.height dx dy).mpr ⟨hdx, hdy⟩,
      hpaint, ?_⟩
    rw [mem_blockIndexList]
    refine ⟨bi, hbi, bj, hbj, ?_⟩
    unfold clearIndex
    rw [← hnx', ← hny']

/-- On one axis, when the display length divides the native length the
clamped block of display cell `d` reaches every native pixel whose unit
interval overlaps the cell's native footprint. -/
lemma axis_divisible_cover (nat disp d n s : Nat) (hd : d < disp)
    (hs : nat = disp * s) (hnat : 0 < nat)
    (hc : coversNative nat disp d n) :
    n < nat ∧ ∃ b, b < blockSize nat disp ∧
      n = min (blockStart nat disp d + b) (nat - 1) := by
  have hdisp : 0 < disp := by omega
  have hspos : 0 < s := by
    rcases Nat.eq_zero_or_pos s with h0 | h0
    · subst h0; simp at hs; omega
    · exact h0
  have hstart : blockStart nat disp d = d * s := by
    unfold blockStart
    rw [hs, show d * (disp * s) = d * s * disp by ring]
    exact Nat.mul_div_cancel _ hdisp
  have hsize : blockSize nat disp = s := by
    unfold blockSize
    rw [hs, show disp * s + disp - 1 = (disp - 1) + disp * s by omega,
      Nat.add_mul_div_left _ _ hdisp, Nat.div_eq_of_lt (by omega),
      Nat.zero_add]
    exact max_eq_right hspos
  obtain ⟨hc₁, hc₂⟩ := hc
  rw [hs] at hc₁ hc₂
  have hds_le : d * s ≤ n := by
    have h₁ : d * s * disp < (n + 1) * disp := by
      rw [show d * s * disp = d * (disp * s) by ring]
      exact hc₁
    have h₂ : d * s < n + 1 := Nat.lt_of_mul_lt_mul_right h₁
    omega
  have hn_lt : n < d * s + s := by
    have h₁ : n * disp < (d * s + s) * disp := by
      rw [show (d * s + s) * disp = (d + 1) * (disp * s) by ring]
      exact hc₂
    exact Nat.lt_of_mul_lt_mul_right h₁
  have hn_nat : n < nat := by
    have h₁ : (d + 1) * s ≤ disp * s := Nat.mul_le_mul_right s (by omega)
    have h₂ : d * s + s = (d + 1) * s := by ring
    omega
  refine ⟨hn_nat, n - d * s, ?_, ?_⟩
  · rw [hsize]; omega
  · rw [hstart, show d * s + (n - d * s) = n by omega,
      min_eq_left (by omega)]

/-- Claim C2 (amended).  `exportMask` produces a native-resolution bitmap
whose alpha is 255 everywhere except exactly on the union, over display
pixels with painted alpha > 10, of the clamped native blocks starting at
`(floor(dx*scaleX), floor(dy*scaleY))` of size `max(1,ceil(scaleX)) ×
max(1,ceil(scaleY))` (first conjunct, an exact characterization).  Each
painted pixel's block always contains the native pixel
`(floor(dx*scaleX), floor(dy*scaleY))` (second conjunct), and when the
display dimensions divide the native dimensions the transparent region
fully contains the native footprint of every painted display pixel (third
conjunct).  For non-integer scale factors the block can miss the last
native pixel overlapping a painted display pixel's footprint — see the
counterexample — so the claim's unconditional "over-covers, never
under-covers" guarantee does not hold. -/
theorem export_mask_block_coverage (natW natH : Nat) (surf : Surface)
    (hW : 0 < natW) (hH : 0 < natH) :
    (∀ nx ny, nx < natW → ny < natH →
      exportAlpha natW natH surf nx ny =
        if ∃ dx, dx < surf.width ∧ ∃ dy, dy < surf.height ∧
            displayAlpha surf dx dy > 10 ∧
            inClampedBlock natW natH surf dx dy nx ny
        then 0 else 255) ∧
    (∀ dx dy, dx < surf.width → dy < surf.height →
      displayAlpha surf dx dy > 10 →
      exportAlpha natW natH surf (blockStart natW surf.width dx)
        (blockStart natH surf.height dy) = 0) ∧
    (surf.width ∣ natW → surf.height ∣ natH →
      ∀ dx dy nx ny, dx < surf.width → dy < surf.height →
        displayAlpha surf dx dy > 10 →
        coversNative natW surf.width dx nx →
        coversNative natH surf.height dy ny →
        exportAlpha natW natH surf nx ny = 0) := by
  refine ⟨fun nx ny hnx hny =>
    exportAlpha_characterization natW natH surf hW hH nx ny hnx hny,
    ?_, ?_⟩
  · intro dx dy hdx hdy hpaint
    have hwpos : 0 < surf.width := by omega
    have hhpos : 0 < surf.height := by omega
    have htx : blockStart natW surf.width dx < natW := by
      unfold blockStart
      rw [Nat.div_lt_iff_lt_mul hwpos]
      calc dx * natW < surf.width * natW :=
        Nat.mul_lt_mul_of_lt_of_le hdx (le_refl natW) hW
      _ = natW * surf.width := Nat.mul_comm _ _
    have hty : blockStart natH surf.height dy < natH := by
      unfold blockStart
      rw [Nat.div_lt_iff_lt_mul hhpos]
      calc dy * natH < surf.height * natH :=
        Nat.mul_lt_mul_of_lt_of_le hdy (le_refl natH) hH
      _ = natH * surf.height := Nat.mul_comm _ _
    rw [exportAlpha_characterization natW natH surf hW hH _ _ htx hty,
      if_pos ?_]
    refine ⟨dx, hdx, dy, hdy, hpaint, 0, ?_, 0, ?_, ?_, ?_⟩
    · exact lt_of_lt_of_le Nat.zero_lt_one (le_max_left 1 _)
    · exact lt_of_lt_of_le Nat.zero_lt_one (le_max_left 1 _)
    · rw [Nat.add_zero, min_eq_left (by omega)]
    · rw [Nat.add_zero, min_eq_left (by omega)]
  · intro hdw hdh dx dy nx ny hdx hdy hpaint hcx hcy
    obtain ⟨sx, hsx⟩ := hdw
    obtain ⟨sy, hsy⟩ := hdh
    obtain ⟨hnx, bi, hbi, hbix⟩ :=
      axis_divisible_cover natW surf.width dx nx sx hdx hsx hW hcx
    obtain ⟨hny, bj, hbj, hbjy⟩ :=
      axis_divisible_cover natH surf.height dy ny sy hdy hsy hH hcy
    rw [exportAlpha_characterization natW natH surf hW hH nx ny hnx hny,
      if_pos ⟨dx, hdx, dy, hdy, hpaint, bi, hbi, bj, hbj, hbix, hbjy⟩]

/-- A 5×1 display surface with a single painted pixel at `dx = 3`
(alpha 255, all other pixels fully transparent). -/
def underCoverSurf : Surface :=
  ⟨5, 1, [0, 0, 0, 0, 0, 0, 0, 0, 0, 0, 0, 0, 0, 0, 0, 255, 0, 0, 0, 0]⟩

/-- Claim C2 counterexample.  Exporting a 5×1 display surface to native 8×1
(`scaleX = 1.6`), with only display pixel 3 painted: native pixel 6 overlaps
the painted pixel's native footprint `[4.8, 6.4)`, yet the exported mask
leaves it opaque (alpha 255) — the cleared block is `{4, 5}` =
`[floor(4.8), floor(4.8) + ceil(1.6))`.  The transparent region therefore
does NOT fully contain the native projection of every painted display
pixel: the exporter can under-cover at a block's trailing edge. -/
theorem export_under_covers_counterexample :
    displayAlpha underCoverSurf 3 0 > 10 ∧
    coversNative 8 5 3 6 ∧ 6 < 8 ∧
    exportAlpha 8 1 underCoverSurf 6 0 = 255 := by decide

/-- Claim C2 witness: doubling a painted 1×1 surface to native 2×1 clears
the block corner pixel. -/
theorem export_mask_block_coverage_witness :
    exportAlpha 2 1 ⟨1, 1, [0, 0, 0, 255]⟩ 0 0 = 0 :=
  (export_mask_block_coverage 2 1 ⟨1, 1, [0, 0, 0, 255]⟩ (by decide)
    (by decide)).2.1 0 0 (by decide) (by decide) (by decide)

/-- The host-provided paint sub-mode (`paintMode`). -/
inductive PaintMode
  | erase
  | restore
deriving DecidableEq

/-- The host-provided active tool (`toolMode`). -/
inductive ToolMode
  | paint
  | select
  | move
deriving DecidableEq

/-- Idealized rasterization of `ctx.arc(x, y, brushSize / 2, 0, 2π); fill()`:
a hard-edged disc.  Erase mode (`source-over` with the translucent marker
color) raises the alpha byte toward opaque; restore mode (`destination-out`
with an opaque source) clears the alpha byte.  Browser antialiasing,
fractional radii and the exact color-channel blend are not modelled; no
claim in this development depends on the stamped pixel values. -/
def stampCircle (mode : PaintMode) (brush : Nat) (x y : Int)
    (surf : Surface) : Surface :=
  { surf with data := (List.range surf.data.length).map (fun i =>
      let pix := i / 4
      let px : Int := (pix % surf.width : Nat)
      let py : Int := (pix / surf.width : Nat)
      let v := surf.data.getD i 0
      if (px - x) ^ 2 + (py - y) ^ 2 ≤ ((brush : Int) / 2) ^ 2 then
        if i % 4 = 3 then
          match mode with
          | .erase => v + (255 - v) / 2
          | .restore => 0
        else v
      else v) }

/-- The brush engine's `draw(x, y)`: refuses to paint unless the active tool
is the paint tool, is a no-op without a canvas, and otherwise stamps one
disc at the pointer position. -/
def draw (tool : ToolMode) (mode : PaintMode) (brush : Nat) (x y : Int)
    (s : EditorState) : EditorState :=
  if tool ≠ ToolMode.paint then s
  else
    match s.surface with
    | none => s
    | some surf => { s with surface := some (stampCircle mode brush x y surf) }

/-- Claim C8.  Before a surface is allocated (image not yet loaded), export
and paint are safe no-ops: `exportMask` returns `null` and `draw` leaves the
whole editor state unchanged, for every tool, mode, brush size and pointer
position.  (Both functions are total, so neither can throw.) -/
theorem export_paint_unready_noop (s : EditorState)
    (h : s.surface = none) :
    (exportMask s).1 = none ∧
    (∀ (tool : ToolMode) (mode : PaintMode) (brush : Nat) (x y : Int),
      draw tool mode brush x y s = s) := by
  obtain ⟨nw, nh, srf, sel, hsel, us, rs⟩ := s
  simp only at h
  subst h
  refine ⟨rfl, ?_⟩
  intro tool mode brush x y
  unfold draw
  split
  · rfl
  · rfl

/-- Claim C8 witness: a freshly mounted editor (no image loaded yet). -/
theorem export_paint_unready_noop_witness :
    (exportMask ⟨0, 0, none, none, false, [], []⟩).1 = none :=
  (export_paint_unready_noop ⟨0, 0, none, none, false, [], []⟩ rfl).1

/-- Claim C10.  `exportMask` is observationally read-only on the editor
state: it reads the display pixels with `getImageData` (a copy) and writes
only to a freshly created offscreen mask canvas, so after any call the
surface, the selection mask and both history stacks are identical to their
values before the call. -/
theorem export_mask_readonly (s : EditorState) :
    (exportMask s).2 = s ∧
    (exportMask s).2.surface = s.surface ∧
    (exportMask s).2.selectionMask = s.selectionMask ∧
    (exportMask s).2.undoStack = s.undoStack ∧
    (exportMask s).2.redoStack = s.redoStack := by
  have h : (exportMask s).2 = s := by
    obtain ⟨nw, nh, srf, sel, hsel, us, rs⟩ := s
    cases srf <;> rfl
  exact ⟨h, by rw [h], by rw [h], by rw [h], by rw [h]⟩

end PromptForge
